import Mathlib

/-!
Shallow embedding of the Legilimens in-process variable-tracing library
(single header `legilimens.hpp`), together with proofs about its specified
behaviour: the probe-name encoding (`legilimens::Name`), the fast byte copy
routine (`impl_::copyBytesQuicklyAndUnsafely`), the per-category
live-variable stack with its sampling operation (`legilimens::Category`),
and the global category registry with its query functions.

Names of C strings are modeled as `List Nat` of byte values; a C string
contains no embedded `0` byte, the terminator is the end of the list, and
reading the string at index `p` is `List.getD p 0` (one past the end reads
the terminator, i.e. `0`).  Machine `uint64` chunks are `Nat` taken modulo
`2 ^ 64` at each assignment.
-/

namespace Legilimens

/-! ### Name encoding (`legilimens::Name`) -/

/-- Embeds `Name::EncodedChunk`, which is `std::uint64_t`: 64 value bits per chunk. -/
def EncodedChunkBits : Nat := 64

/-- Embeds `Name::NumberOfChunks = 4`. -/
def NumberOfChunks : Nat := 4

/-- Embeds `Name::CharactersPerChunk = sizeof(EncodedChunk) * 8 / 7 = 9`. -/
def CharactersPerChunk : Nat := 64 / 7

/-- Embeds `Name::MaxLength = CharactersPerChunk * NumberOfChunks = 36`. -/
def MaxLength : Nat := CharactersPerChunk * NumberOfChunks

/-- One iteration of the loop in `Name::encode` at position `i`: if the source
pointer `p` is not at the terminator, the current character (masked to its low
7 bits, as `std::uint32_t(*p) & 0x7FU` does) is ORed into bit field
`7 * (i % CharactersPerChunk)` of chunk `i / CharactersPerChunk` and `p`
advances; otherwise the slot is skipped (left zero) and `p` wraps back to the
start of the name.  The state is `(p, chunks)`. -/
def encodeStep (name : List Nat) (st : Nat × List Nat) (i : Nat) : Nat × List Nat :=
  let p := st.1
  let b := st.2
  if name.getD p 0 ≠ 0 then
    (p + 1,
      b.set (i / CharactersPerChunk)
        ((b.getD (i / CharactersPerChunk) 0 |||
          ((name.getD p 0 &&& 127) <<< (7 * (i % CharactersPerChunk)))) % 2 ^ EncodedChunkBits))
  else
    (0, b)

/-- The state `(p, chunks)` of `Name::encode` after the first `n` of the
`MaxLength` loop iterations, starting from `p = name` and zeroed chunks. -/
def encodeState (name : List Nat) (n : Nat) : Nat × List Nat :=
  (List.range n).foldl (encodeStep name) (0, List.replicate NumberOfChunks 0)

/-- Embeds `Name::encode`: packs the name into `NumberOfChunks` 64-bit chunks, 7 bits
per character, `CharactersPerChunk` characters per chunk, wrapping the source
pointer back to the start of the name each time the terminator is reached. -/
def encode (name : List Nat) : List Nat := (encodeState name MaxLength).2

/-- The 7-bit character stored at position `i` of an encoded chunk sequence;
this is the extraction `(chunks_[i / CharactersPerChunk] >> (7 * (i %
CharactersPerChunk))) & 0x7FU` performed by `Name::toString`. -/
def charAt (chunks : List Nat) (i : Nat) : Nat :=
  (chunks.getD (i / CharactersPerChunk) 0 >>> (7 * (i % CharactersPerChunk))) &&& 127

/-- The loop of `Name::toString` from position `i` on: collects characters and
stops at the first zero character or after `MaxLength` positions. -/
def toStringFrom (chunks : List Nat) (i : Nat) : List Nat :=
  if _h : i < MaxLength then
    if charAt chunks i = 0 then [] else charAt chunks i :: toStringFrom chunks (i + 1)
  else []
termination_by MaxLength - i
decreasing_by omega

/-- Embeds `Name::toString`: decodes the chunks back into a string, stopping at the
first terminator. -/
def decodeName (chunks : List Nat) : List Nat := toStringFrom chunks 0

/-- The scanning loop of `Name::isValidName` with the remaining characters and
the current index `i`: stops successfully at the terminator; rejects a
character whose `std::uint32_t` image is `≥ 128` (for byte values this is
exactly the bytes `≥ 128`); after that check rejects index `i ≥ MaxLength`. -/
def isValidFrom : List Nat → Nat → Bool
  | [], _ => true
  | c :: rest, i =>
    if c = 0 then true
    else if 128 ≤ c then false
    else if MaxLength ≤ i then false
    else isValidFrom rest (i + 1)

/-- Embeds `Name::isValidName`: an empty name is invalid, otherwise the string is
scanned by `isValidFrom`. -/
def isValidName (name : List Nat) : Bool :=
  if name.getD 0 0 = 0 then false else isValidFrom name 0

/-- The character that iteration `i` of the `Name::encode` loop sees: because
the source pointer wraps past the terminator back to the start, position `i`
reads the name extended periodically with period `length + 1` (the extra slot
being the terminator). -/
def streamChar (name : List Nat) (i : Nat) : Nat :=
  name.getD (i % (name.length + 1)) 0

/-! ### Helper lemmas about 7-bit field extraction -/

lemma and_127_eq_mod (x : Nat) : x &&& 127 = x % 2 ^ 7 := by
  have h : (127 : Nat) = 2 ^ 7 - 1 := by norm_num
  rw [h, Nat.and_pow_two_sub_one_eq_mod]

lemma field_extract_self (c x k : Nat) (hx : x < 128) :
    ((c ||| x <<< k) >>> k) &&& 127 = ((c >>> k) &&& 127) ||| x := by
  simp only [and_127_eq_mod]
  apply Nat.eq_of_testBit_eq
  intro b
  simp only [Nat.testBit_mod_two_pow, Nat.testBit_shiftRight, Nat.testBit_or,
    Nat.testBit_shiftLeft, ge_iff_le]
  rcases Nat.lt_or_ge b 7 with hb | hb
  · simp [hb, Nat.le_add_right, Nat.add_sub_cancel_left]
  · have h128 : (128 : Nat) ≤ 2 ^ b := by
      calc (128 : Nat) = 2 ^ 7 := by norm_num
        _ ≤ 2 ^ b := Nat.pow_le_pow_right (by norm_num) hb
    have hxb : Nat.testBit x b = false :=
      Nat.testBit_lt_two_pow (lt_of_lt_of_le hx h128)
    simp [Nat.not_lt.mpr hb, hxb]

lemma field_extract_other (c x k j : Nat) (hx : x < 128) (hjk : j + 7 ≤ k ∨ k + 7 ≤ j) :
    ((c ||| x <<< k) >>> j) &&& 127 = (c >>> j) &&& 127 := by
  simp only [and_127_eq_mod]
  apply Nat.eq_of_testBit_eq
  intro b
  simp only [Nat.testBit_mod_two_pow, Nat.testBit_shiftRight, Nat.testBit_or,
    Nat.testBit_shiftLeft, ge_iff_le]
  rcases Nat.lt_or_ge b 7 with hb | hb
  · rcases hjk with h | h
    · have hk : ¬ k ≤ j + b := by omega
      simp [hb, hk]
    · have h7 : (128 : Nat) ≤ 2 ^ (j + b - k) := by
        calc (128 : Nat) = 2 ^ 7 := by norm_num
          _ ≤ 2 ^ (j + b - k) := Nat.pow_le_pow_right (by norm_num) (by omega)
      have hxb : Nat.testBit x (j + b - k) = false :=
        Nat.testBit_lt_two_pow (lt_of_lt_of_le hx h7)
      simp [hb, hxb]
  · simp [Nat.not_lt.mpr hb]

/-! ### The encode loop invariant -/

/-- One step of the `Name::encode` loop preserves its invariant: the source
pointer tracks `i mod (length + 1)`, the chunks stay in range, and position
`t` of the chunks holds `streamChar name t` exactly for the positions already
processed. -/
lemma encodeStep_preserves (name : List Nat) (hc : ∀ c ∈ name, 0 < c ∧ c < 128)
    (p : Nat) (b : List Nat) (i : Nat) (hi : i < MaxLength)
    (hp : p = i % (name.length + 1))
    (hlen : b.length = NumberOfChunks)
    (hbound : ∀ q, b.getD q 0 < 2 ^ 63)
    (hchar : ∀ t, t < MaxLength → charAt b t = if t < i then streamChar name t else 0) :
    (encodeStep name (p, b) i).1 = (i + 1) % (name.length + 1) ∧
    (encodeStep name (p, b) i).2.length = NumberOfChunks ∧
    (∀ q, (encodeStep name (p, b) i).2.getD q 0 < 2 ^ 63) ∧
    (∀ t, t < MaxLength → charAt (encodeStep name (p, b) i).2 t =
      if t < i + 1 then streamChar name t else 0) := by
  have hC : CharactersPerChunk = 9 := rfl
  have hM : MaxLength = 36 := rfl
  have hN : NumberOfChunks = 4 := rfl
  have hstream : streamChar name i = name.getD p 0 := by rw [streamChar, hp]
  have hple : p ≤ name.length := by
    rw [hp]
    exact Nat.le_of_lt_succ (Nat.mod_lt _ (Nat.succ_pos _))
  by_cases h0 : name.getD p 0 = 0
  · -- the loop reached the terminator: slot `i` is skipped, the pointer wraps
    have hstep : encodeStep name (p, b) i = (0, b) := by
      simp only [encodeStep]
      rw [if_neg (not_not_intro h0)]
    rw [hstep]
    have hplen : p = name.length := by
      rcases Nat.lt_or_ge p name.length with h | h
      · exfalso
        have he : name.getD p 0 = name.get ⟨p, h⟩ := by
          rw [List.getD_eq_getElem?_getD, List.getElem?_eq_getElem h]
          rfl
        have hmem : name.get ⟨p, h⟩ ∈ name := List.get_mem name p h
        have := (hc _ hmem).1
        omega
      · omega
    refine ⟨?_, hlen, hbound, ?_⟩
    · rcases Nat.eq_zero_or_pos name.length with hz | hpos
      · simp [hz, Nat.mod_one]
      · have h1m : 1 % (name.length + 1) = 1 := Nat.mod_eq_of_lt (by omega)
        rw [Nat.add_mod i 1, h1m, ← hp, hplen, Nat.mod_self]
    · intro t ht
      rw [hchar t ht]
      rcases Nat.lt_trichotomy t i with h | h | h
      · rw [if_pos h, if_pos (Nat.lt_succ_of_lt h)]
      · subst h
        rw [if_neg (lt_irrefl t), if_pos (Nat.lt_succ_self t), hstream, h0]
      · rw [if_neg (by omega), if_neg (by omega)]
  · -- a live character is stored into bit field `7 * (i % 9)` of chunk `i / 9`
    have hplen : p < name.length := by
      by_contra h
      apply h0
      rw [List.getD_eq_getElem?_getD, List.getElem?_eq_none (by omega)]
      rfl
    have hmem : name.getD p 0 ∈ name := by
      have he : name.getD p 0 = name.get ⟨p, hplen⟩ := by
        rw [List.getD_eq_getElem?_getD, List.getElem?_eq_getElem hplen]
        rfl
      rw [he]
      exact List.get_mem name p hplen
    obtain ⟨hcpos, hclt⟩ := hc _ hmem
    have hx : name.getD p 0 &&& 127 = name.getD p 0 := by
      rw [and_127_eq_mod]
      have h128 : (2 : Nat) ^ 7 = 128 := by norm_num
      rw [h128]
      exact Nat.mod_eq_of_lt hclt
    have hq4 : i / CharactersPerChunk < NumberOfChunks := by rw [hC, hN]; omega
    have hqlen : i / CharactersPerChunk < b.length := by rw [hlen]; exact hq4
    have hshift : name.getD p 0 <<< (7 * (i % CharactersPerChunk)) < 2 ^ 63 := by
      rw [Nat.shiftLeft_eq]
      have h1 : 7 * (i % CharactersPerChunk) ≤ 56 := by rw [hC]; omega
      calc name.getD p 0 * 2 ^ (7 * (i % CharactersPerChunk))
          ≤ 127 * 2 ^ (7 * (i % CharactersPerChunk)) :=
            Nat.mul_le_mul (by omega) (le_refl _)
        _ ≤ 127 * 2 ^ 56 := Nat.mul_le_mul (le_refl 127) (Nat.pow_le_pow_right (by norm_num) h1)
        _ < 2 ^ 63 := by norm_num
    have hor : b.getD (i / CharactersPerChunk) 0 |||
        (name.getD p 0 &&& 127) <<< (7 * (i % CharactersPerChunk)) < 2 ^ 63 := by
      rw [hx]
      exact Nat.or_lt_two_pow (hbound _) hshift
    have hmod : (b.getD (i / CharactersPerChunk) 0 |||
        (name.getD p 0 &&& 127) <<< (7 * (i % CharactersPerChunk))) % 2 ^ EncodedChunkBits =
        b.getD (i / CharactersPerChunk) 0 |||
        (name.getD p 0 &&& 127) <<< (7 * (i % CharactersPerChunk)) := by
      refine Nat.mod_eq_of_lt (lt_trans hor ?_)
      norm_num [EncodedChunkBits]
    have hstep : encodeStep name (p, b) i = (p + 1,
        b.set (i / CharactersPerChunk)
          (b.getD (i / CharactersPerChunk) 0 |||
            (name.getD p 0 &&& 127) <<< (7 * (i % CharactersPerChunk)))) := by
      simp only [encodeStep]
      rw [if_pos h0, hmod]
    rw [hstep]
    refine ⟨?_, by simp [hlen], ?_, ?_⟩
    · have h1m : 1 % (name.length + 1) = 1 := Nat.mod_eq_of_lt (by omega)
      show p + 1 = (i + 1) % (name.length + 1)
      rw [Nat.add_mod i 1, h1m, ← hp]
      exact (Nat.mod_eq_of_lt (by omega)).symm
    · intro q
      rcases eq_or_ne q (i / CharactersPerChunk) with h | h
      · subst h
        rw [List.getD_eq_getElem?_getD, List.getElem?_set_self hqlen]
        exact hor
      · rw [List.getD_eq_getElem?_getD, List.getElem?_set_ne (Ne.symm h),
          ← List.getD_eq_getElem?_getD]
        exact hbound q
    · intro t ht
      by_cases hqt : t / CharactersPerChunk = i / CharactersPerChunk
      · have hgetD : (b.set (i / CharactersPerChunk)
            (b.getD (i / CharactersPerChunk) 0 |||
              (name.getD p 0 &&& 127) <<< (7 * (i % CharactersPerChunk)))).getD
            (t / CharactersPerChunk) 0 =
            b.getD (i / CharactersPerChunk) 0 |||
              (name.getD p 0 &&& 127) <<< (7 * (i % CharactersPerChunk)) := by
          rw [hqt, List.getD_eq_getElem?_getD, List.getElem?_set_self hqlen]
          rfl
        by_cases hti : t = i
        · rw [hti, charAt, List.getD_eq_getElem?_getD, List.getElem?_set_self hqlen,
            Option.getD_some, hx, field_extract_self _ _ _ hclt]
          have h1 : (b.getD (i / CharactersPerChunk) 0 >>> (7 * (i % CharactersPerChunk))) &&& 127
              = charAt b i := rfl
          rw [h1, hchar i hi, if_neg (lt_irrefl i), Nat.zero_or,
            if_pos (Nat.lt_succ_self i), hstream]
        · have hrr : t % CharactersPerChunk ≠ i % CharactersPerChunk := by
            rw [hC] at hqt ⊢
            omega
          have h2 : 7 * (t % CharactersPerChunk) + 7 ≤ 7 * (i % CharactersPerChunk) ∨
              7 * (i % CharactersPerChunk) + 7 ≤ 7 * (t % CharactersPerChunk) := by
            rw [hC] at hrr ⊢
            omega
          rw [charAt, hgetD, hx, field_extract_other _ _ _ _ hclt h2]
          have h1 : (b.getD (i / CharactersPerChunk) 0 >>> (7 * (t % CharactersPerChunk))) &&& 127
              = charAt b t := by rw [charAt, hqt]
          rw [h1, hchar t ht]
          rcases Nat.lt_or_ge t i with h | h
          · rw [if_pos h, if_pos (by omega)]
          · rw [if_neg (by omega), if_neg (by omega)]
      · have hgetD : (b.set (i / CharactersPerChunk)
            (b.getD (i / CharactersPerChunk) 0 |||
              (name.getD p 0 &&& 127) <<< (7 * (i % CharactersPerChunk)))).getD
            (t / CharactersPerChunk) 0 = b.getD (t / CharactersPerChunk) 0 := by
          rw [List.getD_eq_getElem?_getD, List.getElem?_set_ne (Ne.symm hqt),
            ← List.getD_eq_getElem?_getD]
        have hti : t ≠ i := fun h => hqt (by rw [h])
        rw [charAt, hgetD]
        have h1 : (b.getD (t / CharactersPerChunk) 0 >>> (7 * (t % CharactersPerChunk))) &&& 127
            = charAt b t := rfl
        rw [h1, hchar t ht]
        rcases Nat.lt_or_ge t i with h | h
        · rw [if_pos h, if_pos (by omega)]
        · rw [if_neg (by omega), if_neg (by omega)]

/-- The loop invariant of `Name::encode` after `i` of the `MaxLength`
iterations: the source pointer has wrapped `i mod (length + 1)` characters in,
the chunk vector still has `NumberOfChunks` entries each below `2 ^ 63`
(so the `uint64` arithmetic never overflows), and position `t` of the chunks
holds the stream character `streamChar name t` for `t < i` and zero beyond. -/
lemma encode_invariant (name : List Nat) (hc : ∀ c ∈ name, 0 < c ∧ c < 128) :
    ∀ i, i ≤ MaxLength →
      (encodeState name i).1 = i % (name.length + 1) ∧
      (encodeState name i).2.length = NumberOfChunks ∧
      (∀ q, (encodeState name i).2.getD q 0 < 2 ^ 63) ∧
      (∀ t, t < MaxLength → charAt (encodeState name i).2 t =
        if t < i then streamChar name t else 0) := by
  intro i
  induction i with
  | zero =>
    intro _
    refine ⟨rfl, by simp [encodeState, NumberOfChunks], ?_, ?_⟩
    · intro q
      simp only [encodeState, List.range_zero, List.foldl_nil]
      rcases Nat.lt_or_ge q NumberOfChunks with h | h
      · simp [List.getD_eq_getElem?_getD, List.getElem?_replicate, h]
      · simp [List.getD_eq_getElem?_getD, List.getElem?_replicate, Nat.not_lt.mpr h]
    · intro t _
      simp only [encodeState, List.range_zero, List.foldl_nil, charAt]
      rcases Nat.lt_or_ge (t / CharactersPerChunk) NumberOfChunks with h | h
      · simp [List.getD_eq_getElem?_getD, List.getElem?_replicate, h]
      · simp [List.getD_eq_getElem?_getD, List.getElem?_replicate, Nat.not_lt.mpr h]
  | succ i ih =>
    intro hi1
    have hi : i ≤ MaxLength := Nat.le_of_succ_le hi1
    obtain ⟨hp, hlen, hbound, hchar⟩ := ih hi
    have hstep : encodeState name (i + 1) =
        encodeStep name ((encodeState name i).1, (encodeState name i).2) i := by
      simp [encodeState, List.range_succ]
    rw [hstep]
    exact encodeStep_preserves name hc (encodeState name i).1 (encodeState name i).2 i
      (by omega) hp hlen hbound hchar

lemma getD_pos_of_lt {a : List Nat} (ha : ∀ c ∈ a, 0 < c ∧ c < 128) {i : Nat}
    (h : i < a.length) : 0 < a.getD i 0 := by
  have he : a.getD i 0 = a.get ⟨i, h⟩ := by
    rw [List.getD_eq_getElem?_getD, List.getElem?_eq_getElem h]
    rfl
  rw [he]
  exact (ha _ (List.get_mem a i h)).1

lemma getD_eq_zero_of_ge {a : List Nat} {i : Nat} (h : a.length ≤ i) : a.getD i 0 = 0 := by
  rw [List.getD_eq_getElem?_getD, List.getElem?_eq_none h]
  rfl

/-- Position `t < MaxLength` of the chunks produced by `Name::encode` holds the
wrapped stream character `streamChar name t`. -/
lemma charAt_encode (name : List Nat) (hc : ∀ c ∈ name, 0 < c ∧ c < 128)
    (t : Nat) (ht : t < MaxLength) :
    charAt (encode name) t = streamChar name t := by
  obtain ⟨-, -, -, hchar⟩ := encode_invariant name hc MaxLength (le_refl _)
  rw [encode, hchar t ht, if_pos ht]

lemma encode_length (name : List Nat) (hc : ∀ c ∈ name, 0 < c ∧ c < 128) :
    (encode name).length = NumberOfChunks :=
  (encode_invariant name hc MaxLength (le_refl _)).2.1

/-- The decoding loop of `Name::toString`, applied from position `i` to the
chunks encoded from a valid name, produces the remaining suffix of the name:
the loop stops at the terminator slot (or at position `MaxLength`), before any
of the wrap-filled slots is ever read as data. -/
lemma toStringFrom_encode (name : List Nat) (hc : ∀ c ∈ name, 0 < c ∧ c < 128)
    (hlen : name.length ≤ MaxLength) :
    ∀ n i, name.length - i ≤ n → i ≤ name.length →
      toStringFrom (encode name) i = name.drop i := by
  intro n
  induction n with
  | zero =>
    intro i h1 h2
    have hi : i = name.length := by omega
    subst hi
    rw [List.drop_length]
    rcases Nat.lt_or_ge name.length MaxLength with h | h
    · rw [toStringFrom, dif_pos h, charAt_encode name hc _ h]
      have hz : streamChar name name.length = 0 := by
        rw [streamChar, Nat.mod_eq_of_lt (Nat.lt_succ_self _)]
        exact getD_eq_zero_of_ge (le_refl _)
      rw [hz, if_pos rfl]
    · rw [toStringFrom, dif_neg (by omega)]
  | succ n ih =>
    intro i h1 h2
    rcases Nat.lt_or_ge i name.length with h | h
    · have hi36 : i < MaxLength := by omega
      rw [toStringFrom, dif_pos hi36, charAt_encode name hc _ hi36]
      have hs : streamChar name i = name.get ⟨i, h⟩ := by
        rw [streamChar, Nat.mod_eq_of_lt (by omega), List.getD_eq_getElem?_getD,
          List.getElem?_eq_getElem h]
        rfl
      have hpos : 0 < name.get ⟨i, h⟩ := (hc _ (List.get_mem name i h)).1
      rw [hs, if_neg (by omega), ih (i + 1) (by omega) (by omega),
        List.drop_eq_get_cons h]
    · have hi : i = name.length := by omega
      subst hi
      rw [List.drop_length]
      rcases Nat.lt_or_ge name.length MaxLength with h' | h'
      · rw [toStringFrom, dif_pos h', charAt_encode name hc _ h']
        have hz : streamChar name name.length = 0 := by
          rw [streamChar, Nat.mod_eq_of_lt (Nat.lt_succ_self _)]
          exact getD_eq_zero_of_ge (le_refl _)
        rw [hz, if_pos rfl]
      · rw [toStringFrom, dif_neg (by omega)]

/-- Decoding inverts encoding on every valid name (shared helper for the
round-trip and wrap-fill results). -/
lemma decode_encode (name : List Nat) (hc : ∀ c ∈ name, 0 < c ∧ c < 128)
    (hlen : name.length ≤ MaxLength) :
    decodeName (encode name) = name := by
  have h := toStringFrom_encode name hc hlen name.length 0 (by omega) (by omega)
  rw [decodeName, h, List.drop_zero]

/-- If the wrapped streams of two valid names agree on the first `MaxLength`
positions and one of the names is shorter than `MaxLength`, the lengths agree. -/
lemma length_eq_of_streamChar_eq (a b : List Nat)
    (ha : ∀ c ∈ a, 0 < c ∧ c < 128) (hb : ∀ c ∈ b, 0 < c ∧ c < 128)
    (hs : ∀ t, t < MaxLength → streamChar a t = streamChar b t)
    (hla : a.length < MaxLength) : b.length = a.length := by
  by_contra hne
  rcases Nat.lt_or_ge b.length a.length with h | h
  · have h1 : streamChar b b.length = 0 := by
      rw [streamChar, Nat.mod_eq_of_lt (Nat.lt_succ_self _)]
      exact getD_eq_zero_of_ge (le_refl _)
    have h2 : streamChar a b.length = a.getD b.length 0 := by
      rw [streamChar, Nat.mod_eq_of_lt (by omega)]
    have h3 := hs b.length (by omega)
    have h4 := getD_pos_of_lt ha h
    omega
  · have hlt : a.length < b.length := by omega
    have h1 : streamChar a a.length = 0 := by
      rw [streamChar, Nat.mod_eq_of_lt (Nat.lt_succ_self _)]
      exact getD_eq_zero_of_ge (le_refl _)
    have h2 : streamChar b a.length = b.getD a.length 0 := by
      rw [streamChar, Nat.mod_eq_of_lt (by omega)]
    have h3 := hs a.length (by omega)
    have h4 := getD_pos_of_lt hb hlt
    omega

/-- If the wrapped streams of two valid names agree on the first `MaxLength`
positions, so do the names themselves (character by character). -/
lemma getD_eq_of_streamChar_eq (a b : List Nat)
    (ha : ∀ c ∈ a, 0 < c ∧ c < 128) (hb : ∀ c ∈ b, 0 < c ∧ c < 128)
    (hs : ∀ t, t < MaxLength → streamChar a t = streamChar b t) :
    ∀ i, i < MaxLength → a.getD i 0 = b.getD i 0 := by
  intro i hi
  rcases Nat.lt_or_ge a.length MaxLength with hla | hla
  · have hlb := length_eq_of_streamChar_eq a b ha hb hs hla
    rcases Nat.lt_or_ge i a.length with h | h
    · have h2 := hs i hi
      rw [streamChar, streamChar, Nat.mod_eq_of_lt (by omega),
        Nat.mod_eq_of_lt (by omega)] at h2
      exact h2
    · rw [getD_eq_zero_of_ge h, getD_eq_zero_of_ge (by omega)]
  · rcases Nat.lt_or_ge b.length MaxLength with hlb | hlb
    · have hab := length_eq_of_streamChar_eq b a hb ha
        (fun t ht => (hs t ht).symm) hlb
      omega
    · have h2 := hs i hi
      rw [streamChar, streamChar, Nat.mod_eq_of_lt (by omega),
        Nat.mod_eq_of_lt (by omega)] at h2
      exact h2

lemma forall_mem_iff_forall_getD (P : Nat → Prop) (l : List Nat) :
    (∀ c ∈ l, P c) ↔ ∀ k, k < l.length → P (l.getD k 0) := by
  constructor
  · intro h k hk
    have he : l.getD k 0 = l.get ⟨k, hk⟩ := by
      rw [List.getD_eq_getElem?_getD, List.getElem?_eq_getElem hk]
      rfl
    rw [he]
    exact h _ (List.get_mem l k hk)
  · intro h c hc
    obtain ⟨⟨k, hk⟩, heq⟩ := List.mem_iff_get.mp hc
    have he : l.getD k 0 = l.get ⟨k, hk⟩ := by
      rw [List.getD_eq_getElem?_getD, List.getElem?_eq_getElem hk]
      rfl
    rw [← heq, ← he]
    exact h k hk

lemma getD_replicate_zero (n q : Nat) : (List.replicate n (0 : Nat)).getD q 0 = 0 := by
  rw [List.getD_eq_getElem?_getD, List.getElem?_replicate]
  split <;> rfl

/-! ### The zero-padded encoding the implementation deliberately avoids -/

/-- Modelled from the spec: one step of the hypothetical
"terminator-then-zero-padded" encoding, which stores the characters of the
name in their positions and leaves every slot from the terminator on zero
(no wrap-fill).  `Name::encode` deliberately does not implement this. -/
def encodeZeroPadStep (name : List Nat) (b : List Nat) (i : Nat) : List Nat :=
  if i < name.length then
    b.set (i / CharactersPerChunk)
      ((b.getD (i / CharactersPerChunk) 0 |||
        ((name.getD i 0 &&& 127) <<< (7 * (i % CharactersPerChunk)))) % 2 ^ EncodedChunkBits)
  else b

/-- Modelled from the spec: the zero-padded encoding after `n` positions. -/
def encodeZeroPadState (name : List Nat) (n : Nat) : List Nat :=
  (List.range n).foldl (encodeZeroPadStep name) (List.replicate NumberOfChunks 0)

/-- Modelled from the spec: the full "terminator-then-zero-padded" encoding of
a name, used as the point of comparison for the wrap-fill behaviour. -/
def encodeZeroPad (name : List Nat) : List Nat := encodeZeroPadState name MaxLength

/-- Every slot at or past the terminator of the zero-padded encoding is zero
(and the chunks stay in `uint64` range). -/
lemma encodeZeroPad_invariant (name : List Nat) (hc : ∀ c ∈ name, 0 < c ∧ c < 128) :
    ∀ i, i ≤ MaxLength →
      (encodeZeroPadState name i).length = NumberOfChunks ∧
      (∀ q, (encodeZeroPadState name i).getD q 0 < 2 ^ 63) ∧
      (∀ t, t < MaxLength → name.length ≤ t → charAt (encodeZeroPadState name i) t = 0) := by
  have hC : CharactersPerChunk = 9 := rfl
  have hM : MaxLength = 36 := rfl
  have hN : NumberOfChunks = 4 := rfl
  intro i
  induction i with
  | zero =>
    intro _
    refine ⟨by simp [encodeZeroPadState, NumberOfChunks], ?_, ?_⟩
    · intro q
      simp only [encodeZeroPadState, List.range_zero, List.foldl_nil]
      rw [getD_replicate_zero]
      norm_num
    · intro t _ _
      simp only [encodeZeroPadState, List.range_zero, List.foldl_nil, charAt]
      rw [getD_replicate_zero]
      simp [Nat.zero_shiftRight]
  | succ i ih =>
    intro hi1
    have hi : i ≤ MaxLength := Nat.le_of_succ_le hi1
    obtain ⟨hlen, hbound, hchar⟩ := ih hi
    have hstep : encodeZeroPadState name (i + 1) =
        encodeZeroPadStep name (encodeZeroPadState name i) i := by
      simp [encodeZeroPadState, List.range_succ]
    rw [hstep]
    by_cases h0 : i < name.length
    · have hd0 : 0 < name.getD i 0 ∧ name.getD i 0 < 128 := by
        constructor
        · exact getD_pos_of_lt hc h0
        · exact ((forall_mem_iff_forall_getD (fun c => 0 < c ∧ c < 128) name).mp hc i h0).2
      have hx : name.getD i 0 &&& 127 = name.getD i 0 := by
        rw [and_127_eq_mod]
        have h128 : (2 : Nat) ^ 7 = 128 := by norm_num
        rw [h128]
        exact Nat.mod_eq_of_lt hd0.2
      have hqlen : i / CharactersPerChunk < (encodeZeroPadState name i).length := by
        rw [hlen, hN, hC]
        omega
      have hshift : name.getD i 0 <<< (7 * (i % CharactersPerChunk)) < 2 ^ 63 := by
        rw [Nat.shiftLeft_eq]
        have h1 : 7 * (i % CharactersPerChunk) ≤ 56 := by rw [hC]; omega
        calc name.getD i 0 * 2 ^ (7 * (i % CharactersPerChunk))
            ≤ 127 * 2 ^ (7 * (i % CharactersPerChunk)) :=
              Nat.mul_le_mul (by omega) (le_refl _)
          _ ≤ 127 * 2 ^ 56 := Nat.mul_le_mul (le_refl 127) (Nat.pow_le_pow_right (by norm_num) h1)
          _ < 2 ^ 63 := by norm_num
      have hor : (encodeZeroPadState name i).getD (i / CharactersPerChunk) 0 |||
          (name.getD i 0 &&& 127) <<< (7 * (i % CharactersPerChunk)) < 2 ^ 63 := by
        rw [hx]
        exact Nat.or_lt_two_pow (hbound _) hshift
      have hmod : ((encodeZeroPadState name i).getD (i / CharactersPerChunk) 0 |||
          (name.getD i 0 &&& 127) <<< (7 * (i % CharactersPerChunk))) % 2 ^ EncodedChunkBits =
          (encodeZeroPadState name i).getD (i / CharactersPerChunk) 0 |||
          (name.getD i 0 &&& 127) <<< (7 * (i % CharactersPerChunk)) := by
        refine Nat.mod_eq_of_lt (lt_trans hor ?_)
        norm_num [EncodedChunkBits]
      have hstep2 : encodeZeroPadStep name (encodeZeroPadState name i) i =
          (encodeZeroPadState name i).set (i / CharactersPerChunk)
            ((encodeZeroPadState name i).getD (i / CharactersPerChunk) 0 |||
              (name.getD i 0 &&& 127) <<< (7 * (i % CharactersPerChunk))) := by
        rw [encodeZeroPadStep, if_pos h0, hmod]
      rw [hstep2]
      refine ⟨by simp [hlen], ?_, ?_⟩
      · intro q
        rcases eq_or_ne q (i / CharactersPerChunk) with h | h
        · subst h
          rw [List.getD_eq_getElem?_getD, List.getElem?_set_self hqlen]
          exact hor
        · rw [List.getD_eq_getElem?_getD, List.getElem?_set_ne (Ne.symm h),
            ← List.getD_eq_getElem?_getD]
          exact hbound q
      · intro t ht htlen
        have hti : t ≠ i := by omega
        by_cases hqt : t / CharactersPerChunk = i / CharactersPerChunk
        · have hrr : t % CharactersPerChunk ≠ i % CharactersPerChunk := by
            rw [hC] at hqt ⊢
            omega
          have h2 : 7 * (t % CharactersPerChunk) + 7 ≤ 7 * (i % CharactersPerChunk) ∨
              7 * (i % CharactersPerChunk) + 7 ≤ 7 * (t % CharactersPerChunk) := by
            rw [hC] at hrr ⊢
            omega
          have hgetD : ((encodeZeroPadState name i).set (i / CharactersPerChunk)
              ((encodeZeroPadState name i).getD (i / CharactersPerChunk) 0 |||
                (name.getD i 0 &&& 127) <<< (7 * (i % CharactersPerChunk)))).getD
              (t / CharactersPerChunk) 0 =
              (encodeZeroPadState name i).getD (i / CharactersPerChunk) 0 |||
                (name.getD i 0 &&& 127) <<< (7 * (i % CharactersPerChunk)) := by
            rw [hqt, List.getD_eq_getElem?_getD, List.getElem?_set_self hqlen]
            rfl
          rw [charAt, hgetD, hx, field_extract_other _ _ _ _ hd0.2 h2]
          have h1 : ((encodeZeroPadState name i).getD (i / CharactersPerChunk) 0 >>>
              (7 * (t % CharactersPerChunk))) &&& 127 = charAt (encodeZeroPadState name i) t := by
            rw [charAt, hqt]
          rw [h1]
          exact hchar t ht htlen
        · have hgetD : ((encodeZeroPadState name i).set (i / CharactersPerChunk)
              ((encodeZeroPadState name i).getD (i / CharactersPerChunk) 0 |||
                (name.getD i 0 &&& 127) <<< (7 * (i % CharactersPerChunk)))).getD
              (t / CharactersPerChunk) 0 =
              (encodeZeroPadState name i).getD (t / CharactersPerChunk) 0 := by
            rw [List.getD_eq_getElem?_getD, List.getElem?_set_ne (Ne.symm hqt),
              ← List.getD_eq_getElem?_getD]
          rw [charAt, hgetD]
          have h1 : ((encodeZeroPadState name i).getD (t / CharactersPerChunk) 0 >>>
              (7 * (t % CharactersPerChunk))) &&& 127 = charAt (encodeZeroPadState name i) t := rfl
          rw [h1]
          exact hchar t ht htlen
    · rw [encodeZeroPadStep, if_neg h0]
      exact ⟨hlen, hbound, hchar⟩

/-- The scanning loop of `Name::isValidName` succeeds exactly when every
remaining character is below 128 and sits at an index below `MaxLength`
(for strings without embedded NUL bytes). -/
lemma isValidFrom_iff : ∀ (l : List Nat), (∀ c ∈ l, 0 < c) → ∀ i,
    (isValidFrom l i = true ↔
      ∀ k, k < l.length → l.getD k 0 < 128 ∧ i + k < MaxLength) := by
  intro l
  induction l with
  | nil =>
    intro _ i
    simp [isValidFrom]
  | cons c rest ih =>
    intro hnz i
    have hc0 : ¬ c = 0 := by
      have := hnz c (List.mem_cons_self c rest)
      omega
    rw [isValidFrom, if_neg hc0]
    by_cases h1 : 128 ≤ c
    · rw [if_pos h1]
      constructor
      · intro h
        exact absurd h (by simp)
      · intro h
        have h2 := (h 0 (by simp)).1
        rw [List.getD_cons_zero] at h2
        omega
    · rw [if_neg h1]
      by_cases h2 : MaxLength ≤ i
      · rw [if_pos h2]
        constructor
        · intro h
          exact absurd h (by simp)
        · intro h
          have h3 := (h 0 (by simp)).2
          omega
      · rw [if_neg h2, ih (fun x hx => hnz x (List.mem_cons_of_mem _ hx)) (i + 1)]
        constructor
        · intro h k hk
          cases k with
          | zero =>
            rw [List.getD_cons_zero]
            exact ⟨by omega, by omega⟩
          | succ k =>
            have h3 := h k (by simpa using hk)
            rw [List.getD_cons_succ]
            exact ⟨h3.1, by omega⟩
        · intro h k hk
          have h3 := h (k + 1) (by simp; omega)
          rw [List.getD_cons_succ] at h3
          exact ⟨h3.1, by omega⟩

/-- C9: `Name::isValidName` returns false for the empty string, false for
every string containing a byte `≥ 128`, false for every string longer than
`MaxLength` (36) characters, and true for every non-empty string of at most 36
characters all below 128 (in particular, exactly 36 valid characters are
accepted).  Stated as an exact characterization for byte strings without
embedded NUL, which C strings cannot contain. -/
theorem claim_c9_isValidName (name : List Nat) (hnz : ∀ c ∈ name, 0 < c) :
    isValidName name = true ↔
      name ≠ [] ∧ (∀ c ∈ name, c < 128) ∧ name.length ≤ MaxLength := by
  cases name with
  | nil => simp [isValidName]
  | cons c rest =>
    have hc0 : ¬ c = 0 := by
      have := hnz c (List.mem_cons_self c rest)
      omega
    rw [isValidName, if_neg (by rw [List.getD_cons_zero]; exact hc0),
      isValidFrom_iff _ hnz 0]
    constructor
    · intro h
      refine ⟨by simp, ?_, ?_⟩
      · rw [forall_mem_iff_forall_getD]
        intro k hk
        exact (h k hk).1
      · have hlenpos : 0 < (c :: rest).length := by simp
        have h2 := (h ((c :: rest).length - 1) (by omega)).2
        omega
    · rintro ⟨-, h128, hlen⟩ k hk
      refine ⟨?_, by omega⟩
      exact (forall_mem_iff_forall_getD _ _).mp h128 k hk

theorem claim_c9_isValidName_witness : isValidName [97] = true :=
  (claim_c9_isValidName [97] (by decide)).mpr (by decide)

/-- C3: for every valid name (non-empty, every character below 128, length at
most `MaxLength` = 36 characters), decoding the encoded identifier reproduces
the original name exactly: `Name(name).toString() == name`. -/
theorem claim_c3_roundtrip (name : List Nat) (hne : name ≠ [])
    (hc : ∀ c ∈ name, 0 < c ∧ c < 128) (hlen : name.length ≤ MaxLength) :
    decodeName (encode name) = name :=
  decode_encode name hc hlen

theorem claim_c3_roundtrip_witness : decodeName (encode [104, 105]) = [104, 105] :=
  claim_c3_roundtrip [104, 105] (by decide) (by decide) (by decide)

/-- C5: two names that differ at some position within the first `MaxLength`
(36) characters have different encodings (so the chunk-wise identifier
comparison distinguishes them).  Stated for byte strings of 7-bit nonzero
characters, the regime the library documents. -/
theorem claim_c5_encode_injective (a b : List Nat)
    (ha : ∀ c ∈ a, 0 < c ∧ c < 128) (hb : ∀ c ∈ b, 0 < c ∧ c < 128)
    (hdiff : ∃ i, i < MaxLength ∧ a.getD i 0 ≠ b.getD i 0) :
    encode a ≠ encode b := by
  intro heq
  obtain ⟨i, hi, hne⟩ := hdiff
  apply hne
  refine getD_eq_of_streamChar_eq a b ha hb ?_ i hi
  intro t ht
  rw [← charAt_encode a ha t ht, ← charAt_encode b hb t ht, heq]

theorem claim_c5_encode_injective_witness : encode [97] ≠ encode [98] :=
  claim_c5_encode_injective [97] [98] (by decide) (by decide) ⟨0, by decide, by decide⟩

set_option maxRecDepth 100000 in
/-- C4 counterexample: a valid name of 35 characters — shorter than
`MaxLength` = 36 — whose raw encoding is *equal* to the
terminator-then-zero-padded encoding: when the terminator lands on the very
last slot, the wrapped source pointer never stores another character, so the
claim "for every name shorter than MaxLength the raw encoded chunks differ
from a terminator-then-zero-padded encoding" fails at length 35. -/
theorem claim_c4_counterexample :
    (List.replicate 35 97).length < MaxLength ∧
    isValidName (List.replicate 35 97) = true ∧
    encode (List.replicate 35 97) = encodeZeroPad (List.replicate 35 97) := by
  refine ⟨by decide, by decide, by decide⟩

/-- C4 (amended): for every valid name at least two characters shorter than
`MaxLength`, the wrap-fill behaviour makes the raw encoded chunks differ from
the terminator-then-zero-padded encoding (at length exactly `MaxLength - 1`
only the terminator slot remains, and the two encodings coincide), while
decoding still stops at the first terminator and reproduces the name. -/
theorem claim_c4_wrap_fill (name : List Nat) (hne : name ≠ [])
    (hc : ∀ c ∈ name, 0 < c ∧ c < 128) (hlen : name.length + 2 ≤ MaxLength) :
    encode name ≠ encodeZeroPad name ∧ decodeName (encode name) = name := by
  constructor
  · intro heq
    have ht : name.length + 1 < MaxLength := by omega
    have h1 : charAt (encode name) (name.length + 1) = streamChar name (name.length + 1) :=
      charAt_encode name hc _ ht
    have h2 : streamChar name (name.length + 1) = name.getD 0 0 := by
      rw [streamChar, Nat.mod_self]
    have h3 : 0 < name.getD 0 0 := getD_pos_of_lt hc (List.length_pos.mpr hne)
    have h4 : charAt (encodeZeroPad name) (name.length + 1) = 0 :=
      (encodeZeroPad_invariant name hc MaxLength (le_refl _)).2.2 _ ht (by omega)
    rw [heq] at h1
    omega
  · exact decode_encode name hc (by omega)

theorem claim_c4_wrap_fill_witness :
    encode [97] ≠ encodeZeroPad [97] ∧ decodeName (encode [97]) = [97] :=
  claim_c4_wrap_fill [97] (by decide) (by decide) (by decide)

/-! ### Fast byte copy (`impl_::copyBytesQuicklyAndUnsafely`)

Memory is byte-addressed, `mem : Nat → Nat` with byte values below 256.
The native word width `sizeof(std::size_t)` of the target is 8 bytes, and a
`size_t` load/store moves the 8 bytes at its address, least-significant
byte first (little-endian, as on the library's Cortex-M and x86 targets). -/

/-- Embeds `sizeof(std::size_t)`: the native machine word width in bytes. -/
def WordSize : Nat := 8

/-- A single byte store `*dst = v`. -/
def writeByte (mem : Nat → Nat) (a v : Nat) : Nat → Nat :=
  fun x => if x = a then v else mem x

/-- The slow branch of `impl_::copyBytesQuicklyAndUnsafely`: the do-while loop
`*dst = *src; ++dst; ++src;` executed `size` times (the documented contract
requires `size > 0`; for `size = 0` the C code would wrap around and is
declared undefined). -/
def slowCopy (mem : Nat → Nat) (src dst size : Nat) : Nat → Nat :=
  match size with
  | 0 => mem
  | n + 1 => slowCopy (writeByte mem dst (mem src)) (src + 1) (dst + 1) n

/-- The `size_t` value read by `*reinterpret_cast<const volatile size_t*>(src)`:
the `WordSize` bytes at `src` assembled least-significant first. -/
def wordAt (mem : Nat → Nat) (a : Nat) : Nat :=
  (List.range WordSize).foldr (fun r acc => mem (a + r) + 256 * acc) 0

/-- The store `*reinterpret_cast<size_t*>(dst) = w`: each byte of the word
lands at its offset from `dst`. -/
def storeWord (mem : Nat → Nat) (a w : Nat) : Nat → Nat :=
  fun x => if a ≤ x ∧ x < a + WordSize then w / 256 ^ (x - a) % 256 else mem x

/-- The fast branch: one native word per do-while iteration, `size` (a
positive multiple of `WordSize` on this path) decreasing by `WordSize`. -/
def fastCopy (mem : Nat → Nat) (src dst size : Nat) : Nat → Nat :=
  let mem2 := storeWord mem dst (wordAt mem src)
  if WordSize < size then fastCopy mem2 (src + WordSize) (dst + WordSize) (size - WordSize)
  else mem2
termination_by size
decreasing_by
  have h8 : WordSize = 8 := rfl
  omega

/-- Embeds `impl_::copyBytesQuicklyAndUnsafely`: word-at-a-time when `size`, `dst`
and `src` are all multiples of the native word width, byte-at-a-time
otherwise. -/
def copyBytesQuicklyAndUnsafely (size src dst : Nat) (mem : Nat → Nat) : Nat → Nat :=
  if size % WordSize = 0 ∧ dst % WordSize = 0 ∧ src % WordSize = 0 then
    fastCopy mem src dst size
  else
    slowCopy mem src dst size

/-- Modelled from the spec: "a verbatim byte-for-byte copy of `size` bytes",
the reference behaviour the optimized routine must be equivalent to. -/
def plainByteCopy (mem : Nat → Nat) (src dst size : Nat) : Nat → Nat :=
  match size with
  | 0 => mem
  | n + 1 => plainByteCopy (writeByte mem dst (mem src)) (src + 1) (dst + 1) n

lemma slowCopy_eq_plain : ∀ size mem src dst,
    slowCopy mem src dst size = plainByteCopy mem src dst size := by
  intro size
  induction size with
  | zero => intro _ _ _; rfl
  | succ n ih =>
    intro mem src dst
    rw [slowCopy, plainByteCopy]
    exact ih _ _ _

lemma slowCopy_bytes : ∀ size mem src dst, (∀ a, mem a < 256) →
    ∀ a, slowCopy mem src dst size a < 256 := by
  intro size
  induction size with
  | zero => intro mem _ _ hm a; exact hm a
  | succ n ih =>
    intro mem src dst hm a
    rw [slowCopy]
    apply ih
    intro x
    simp only [writeByte]
    split
    · exact hm src
    · exact hm x

/-- The byte loop with non-overlapping regions writes exactly the source
bytes into the destination window and touches nothing else. -/
lemma slowCopy_disjoint : ∀ size mem src dst,
    (src + size ≤ dst ∨ dst + size ≤ src) →
    ∀ x, slowCopy mem src dst size x =
      if dst ≤ x ∧ x < dst + size then mem (src + (x - dst)) else mem x := by
  intro size
  induction size with
  | zero =>
    intro mem src dst _ x
    rw [slowCopy, if_neg (by omega)]
  | succ n ih =>
    intro mem src dst hdisj x
    rw [slowCopy, ih (writeByte mem dst (mem src)) (src + 1) (dst + 1) (by omega) x]
    by_cases h1 : dst + 1 ≤ x ∧ x < dst + 1 + n
    · rw [if_pos h1, if_pos (by omega)]
      have hx : src + 1 + (x - (dst + 1)) = src + (x - dst) := by omega
      rw [hx]
      simp only [writeByte]
      rw [if_neg (by omega)]
    · rw [if_neg h1]
      by_cases h2 : x = dst
      · subst h2
        rw [if_pos (by omega)]
        simp only [writeByte]
        simp
      · rw [if_neg (by omega)]
        simp only [writeByte]
        rw [if_neg h2]

/-- Copying a region onto itself is the identity. -/
lemma slowCopy_self : ∀ size mem src, slowCopy mem src src size = mem := by
  intro size
  induction size with
  | zero => intro _ _; rfl
  | succ n ih =>
    intro mem src
    rw [slowCopy]
    have h : writeByte mem src (mem src) = mem := by
      funext x
      simp only [writeByte]
      by_cases h : x = src
      · rw [if_pos h, h]
      · rw [if_neg h]
    rw [h]
    exact ih _ _

/-- The byte loop splits at any intermediate point. -/
lemma slowCopy_add : ∀ m n mem src dst,
    slowCopy mem src dst (m + n) =
      slowCopy (slowCopy mem src dst m) (src + m) (dst + m) n := by
  intro m
  induction m with
  | zero => intro n mem src dst; simp [slowCopy]
  | succ k ih =>
    intro n mem src dst
    have h : k + 1 + n = (k + n) + 1 := by omega
    have h1 : src + 1 + k = src + (k + 1) := by omega
    have h2 : dst + 1 + k = dst + (k + 1) := by omega
    rw [h, slowCopy, slowCopy, ih, h1, h2]

lemma foldr_digits_extract : ∀ (ds : List Nat), (∀ d ∈ ds, d < 256) →
    ∀ r, r < ds.length →
      (ds.foldr (fun d acc => d + 256 * acc) 0) / 256 ^ r % 256 = ds.getD r 0 := by
  intro ds
  induction ds with
  | nil =>
    intro _ r hr
    simp at hr
  | cons d rest ih =>
    intro hlt r hr
    cases r with
    | zero =>
      simp only [List.foldr_cons, pow_zero, Nat.div_one, List.getD_cons_zero]
      rw [Nat.add_mul_mod_self_left]
      exact Nat.mod_eq_of_lt (hlt d (by simp))
    | succ r =>
      simp only [List.foldr_cons, List.getD_cons_succ]
      have hd : d < 256 := hlt d (by simp)
      have h1 : (d + 256 * (rest.foldr (fun d acc => d + 256 * acc) 0)) / 256 ^ (r + 1)
          = (rest.foldr (fun d acc => d + 256 * acc) 0) / 256 ^ r := by
        rw [pow_succ', ← Nat.div_div_eq_div_mul]
        congr 1
        rw [Nat.add_mul_div_left _ _ (by norm_num : (0 : Nat) < 256),
          Nat.div_eq_of_lt hd]
        omega
      rw [h1]
      exact ih (fun x hx => hlt x (List.mem_cons_of_mem _ hx)) r (by simpa using hr)

/-- Extracting byte `r` of the word read at `src` gives the byte at `src + r`. -/
lemma wordAt_extract (mem : Nat → Nat) (hm : ∀ a, mem a < 256) (a r : Nat)
    (hr : r < WordSize) :
    wordAt mem a / 256 ^ r % 256 = mem (a + r) := by
  have hmap : wordAt mem a = ((List.range WordSize).map (fun r => mem (a + r))).foldr
      (fun d acc => d + 256 * acc) 0 := by
    rw [wordAt, List.foldr_map]
  rw [hmap, foldr_digits_extract _ ?_ r (by simpa using hr)]
  · rw [List.getD_eq_getElem?_getD, List.getElem?_map, List.getElem?_range hr]
    rfl
  · intro d hd
    obtain ⟨r2, -, h⟩ := List.mem_map.mp hd
    rw [← h]
    exact hm _

/-- One word-sized transfer between word-aligned addresses has exactly the
effect of eight byte transfers (the regions either coincide or are disjoint,
because both addresses are multiples of `WordSize`). -/
lemma storeWord_wordAt (mem : Nat → Nat) (hm : ∀ a, mem a < 256) (src dst : Nat)
    (halign : dst = src ∨ src + WordSize ≤ dst ∨ dst + WordSize ≤ src) :
    storeWord mem dst (wordAt mem src) = slowCopy mem src dst WordSize := by
  funext x
  rcases halign with h | h | h
  · subst h
    rw [slowCopy_self]
    simp only [storeWord]
    by_cases hx : dst ≤ x ∧ x < dst + WordSize
    · rw [if_pos hx, wordAt_extract mem hm dst (x - dst) (by omega)]
      congr 1
      omega
    · rw [if_neg hx]
  · rw [slowCopy_disjoint WordSize mem src dst (Or.inl h) x]
    simp only [storeWord]
    by_cases hx : dst ≤ x ∧ x < dst + WordSize
    · rw [if_pos hx, if_pos hx, wordAt_extract mem hm src (x - dst) (by omega)]
    · rw [if_neg hx, if_neg hx]
  · rw [slowCopy_disjoint WordSize mem src dst (Or.inr h) x]
    simp only [storeWord]
    by_cases hx : dst ≤ x ∧ x < dst + WordSize
    · rw [if_pos hx, if_pos hx, wordAt_extract mem hm src (x - dst) (by omega)]
    · rw [if_neg hx, if_neg hx]

/-- On the aligned path the word-at-a-time loop computes exactly the
byte-at-a-time copy. -/
lemma fastCopy_eq_slowCopy : ∀ size, size % WordSize = 0 → 0 < size →
    ∀ mem src dst, (∀ a, mem a < 256) → src % WordSize = 0 → dst % WordSize = 0 →
      fastCopy mem src dst size = slowCopy mem src dst size := by
  intro size
  induction size using Nat.strong_induction_on with
  | _ size ih =>
    intro hmod hpos mem src dst hm hsrc hdst
    have h8 : WordSize = 8 := rfl
    have hs8 : src % 8 = 0 := by rw [← h8]; exact hsrc
    have hd8 : dst % 8 = 0 := by rw [← h8]; exact hdst
    have hm8 : size % 8 = 0 := by rw [← h8]; exact hmod
    have halign : dst = src ∨ src + WordSize ≤ dst ∨ dst + WordSize ≤ src := by
      rw [h8]
      omega
    rw [fastCopy]
    by_cases hgt : WordSize < size
    · have hg8 : 8 < size := by rw [← h8]; exact hgt
      have hlt : size - WordSize < size := by rw [h8]; omega
      have hmod2 : (size - WordSize) % WordSize = 0 := by rw [h8]; omega
      have hpos2 : 0 < size - WordSize := by rw [h8]; omega
      have hsrc2 : (src + WordSize) % WordSize = 0 := by rw [h8]; omega
      have hdst2 : (dst + WordSize) % WordSize = 0 := by rw [h8]; omega
      simp only [if_pos hgt]
      rw [storeWord_wordAt mem hm src dst halign]
      rw [ih (size - WordSize) hlt hmod2 hpos2
        (slowCopy mem src dst WordSize) (src + WordSize) (dst + WordSize)
        (slowCopy_bytes WordSize mem src dst hm) hsrc2 hdst2]
      have harith : WordSize + (size - WordSize) = size := by rw [h8]; omega
      rw [← slowCopy_add, harith]
    · have hg8 : ¬ 8 < size := by rw [← h8]; exact hgt
      simp only [if_neg hgt]
      have hsize : size = WordSize := by rw [h8]; omega
      subst hsize
      exact storeWord_wordAt mem hm src dst halign

/-- C8: for every `size > 0` and all source and destination addresses, the
optimized copy routine leaves memory exactly as a plain byte-for-byte copy of
`size` bytes would, on both the word-at-a-time path (taken when `size` and
both addresses are multiples of the native word width) and the byte-at-a-time
fallback path. -/
theorem claim_c8_copy_equiv (size src dst : Nat) (mem : Nat → Nat)
    (hpos : 0 < size) (hm : ∀ a, mem a < 256) :
    copyBytesQuicklyAndUnsafely size src dst mem = plainByteCopy mem src dst size := by
  rw [copyBytesQuicklyAndUnsafely]
  by_cases h : size % WordSize = 0 ∧ dst % WordSize = 0 ∧ src % WordSize = 0
  · rw [if_pos h, fastCopy_eq_slowCopy size h.1 hpos mem src dst hm h.2.2 h.2.1,
      slowCopy_eq_plain]
  · rw [if_neg h, slowCopy_eq_plain]

theorem claim_c8_copy_equiv_witness :
    copyBytesQuicklyAndUnsafely 8 0 8 (fun a => a % 256) =
      plainByteCopy (fun a => a % 256) 0 8 8 :=
  claim_c8_copy_equiv 8 0 8 (fun a => a % 256) (by decide)
    (fun a => Nat.mod_lt a (by decide))

/-! ### Per-category live-variable stack (`legilimens::Category`)

The stack holds `const volatile void*` locations; pointers are modeled as
`Nat` addresses with `0` standing for `nullptr`.  The critical section makes
each operation atomic, so each is one state transition; the clock value
obtained by `getTimeFromCriticalSection()` inside `sample`'s critical section
is the `clock` argument. -/

/-- Embeds `TypeDescriptor::Kind`. -/
inductive Kind where
  | Boolean
  | Integer
  | Unsigned
  | Real
deriving DecidableEq

/-- Embeds `legilimens::TypeDescriptor`: runtime description of a traced type. -/
structure TypeDescriptor where
  kind : Kind
  element_size : Nat
  number_of_elements : Nat
deriving DecidableEq

/-- Embeds `MaxNumberOfCoexistentProbesOfSameCategory` from the configuration header
used by the unit tests. -/
def MaxNumberOfCoexistentProbesOfSameCategory : Nat := 10

/-- The mutable state of one `Category`: the bounded live-variable stack and
the cached top-of-stack pointer (`0` = `nullptr`). -/
structure CategoryState where
  live_variable_stack_ : List Nat
  live_variable_stack_top_ : Nat
deriving DecidableEq

/-- A freshly constructed `Category`: empty stack, null cached top. -/
def initialCategoryState : CategoryState := ⟨[], 0⟩

/-- Embeds `Category::pushVariable` (the body of its critical section):
`push_back(location)` and cache `location` as the top. -/
def pushVariable (st : CategoryState) (location : Nat) : CategoryState :=
  { live_variable_stack_ := st.live_variable_stack_ ++ [location]
    live_variable_stack_top_ := location }

/-- Embeds `Category::popVariable` (the body of its critical section): `pop_back()`;
then the cached top becomes the new `back()`, or null if the stack is now
empty. -/
def popVariable (st : CategoryState) : CategoryState :=
  let s := st.live_variable_stack_.dropLast
  { live_variable_stack_ := s
    live_variable_stack_top_ := if s.isEmpty then 0 else s.getLastD 0 }

/-- The bytes deposited in the output buffer by the sampling copy: byte `i`
receives the byte at `location + i`.  This is the byte-for-byte effect of the
`impl_::copyBytesQuicklyAndUnsafely` call in `Category::sample`
(`fastCopy_eq_slowCopy` shows the word path agrees with the byte path; the
output buffer is a fresh local vector, disjoint from the sampled variable). -/
def copyIntoBuffer (mem : Nat → Nat) (location : Nat) (out : List Nat) : List Nat :=
  (List.range out.length).map (fun i => mem (location + i))

/-- Embeds `Category::sample`: sizes the output buffer to
`element_size * number_of_elements` zero bytes, reads the clock inside the
critical section, copies from the cached top pointer if it is non-null, and
otherwise clears the buffer (after the critical section). -/
def sample (td : TypeDescriptor) (mem : Nat → Nat) (clock : Nat)
    (st : CategoryState) : Nat × List Nat :=
  let data_size := td.element_size * td.number_of_elements
  let ts := clock
  let out := List.replicate data_size 0
  if st.live_variable_stack_top_ ≠ 0 then
    (ts, copyIntoBuffer mem st.live_variable_stack_top_ out)
  else
    (ts, [])

/-- The category state after pushing the given locations in order. -/
def pushAll (st : CategoryState) (locs : List Nat) : CategoryState :=
  locs.foldl pushVariable st

/-- The category state after `j` pops. -/
def popN (j : Nat) (st : CategoryState) : CategoryState :=
  match j with
  | 0 => st
  | n + 1 => popN n (popVariable st)

/-- The cached-top invariant: the cached pointer is the `getLastD 0` of the
stack (last element when non-empty, `0` when empty). -/
def topConsistent (st : CategoryState) : Prop :=
  st.live_variable_stack_top_ = st.live_variable_stack_.getLastD 0

lemma topConsistent_push (st : CategoryState) (location : Nat) :
    topConsistent (pushVariable st location) := by
  simp [topConsistent, pushVariable, List.getLastD_concat]

lemma topConsistent_pop (st : CategoryState) : topConsistent (popVariable st) := by
  simp only [topConsistent, popVariable]
  by_cases h : st.live_variable_stack_.dropLast.isEmpty
  · rw [if_pos h]
    rw [List.isEmpty_iff] at h
    rw [h]
    rfl
  · rw [if_neg h]

lemma topConsistent_pushAll : ∀ locs st, topConsistent st →
    topConsistent (pushAll st locs) := by
  intro locs
  induction locs with
  | nil => intro st h; exact h
  | cons l rest ih =>
    intro st _
    rw [pushAll, List.foldl_cons]
    exact ih (pushVariable st l) (topConsistent_push st l)

lemma topConsistent_popN : ∀ j st, topConsistent st → topConsistent (popN j st) := by
  intro j
  induction j with
  | zero => intro st h; exact h
  | succ n ih =>
    intro st _
    rw [popN]
    exact ih (popVariable st) (topConsistent_pop st)

lemma pushAll_stack : ∀ locs st, (pushAll st locs).live_variable_stack_ =
    st.live_variable_stack_ ++ locs := by
  intro locs
  induction locs with
  | nil => intro st; simp [pushAll]
  | cons l rest ih =>
    intro st
    rw [pushAll, List.foldl_cons]
    have h := ih (pushVariable st l)
    rw [pushAll] at h
    rw [h]
    simp [pushVariable]

lemma popN_stack : ∀ j st, (popN j st).live_variable_stack_ =
    st.live_variable_stack_.take (st.live_variable_stack_.length - j) := by
  intro j
  induction j with
  | zero =>
    intro st
    rw [popN, Nat.sub_zero, List.take_length]
  | succ n ih =>
    intro st
    rw [popN, ih (popVariable st)]
    have h1 : (popVariable st).live_variable_stack_ = st.live_variable_stack_.dropLast := rfl
    rw [h1, List.dropLast_eq_take, List.take_take, List.length_take]
    congr 1
    omega

lemma getLastD_take (l : List Nat) (m : Nat) (hm : 0 < m) (hml : m ≤ l.length) :
    (l.take m).getLastD 0 = l.getD (m - 1) 0 := by
  rw [List.getLastD_eq_getLast?, List.getLast?_eq_getElem?, List.getD_eq_getElem?_getD,
    List.length_take]
  have h1 : min m l.length = m := by omega
  rw [h1, List.getElem?_take_of_lt (by omega)]

/-- C2: for one category, after pushing `k` non-null locations (with `k` at
most `MaxNumberOfCoexistentProbesOfSameCategory`) and then popping `j ≤ k` of
them, `sample` returns the clock value read inside the critical section,
paired with the `element_size * number_of_elements` bytes read from the
`(k − j)`-th pushed location (LIFO) when `k > j`, and with the empty buffer
when `k = j` — including the case where nothing was ever pushed. -/
theorem claim_c2_sample (td : TypeDescriptor) (mem : Nat → Nat) (clock : Nat)
    (locs : List Nat) (j : Nat)
    (hnn : ∀ l ∈ locs, l ≠ 0)
    (hcap : locs.length ≤ MaxNumberOfCoexistentProbesOfSameCategory)
    (hj : j ≤ locs.length) :
    sample td mem clock (popN j (pushAll initialCategoryState locs)) =
      (clock,
        if j < locs.length then
          copyIntoBuffer mem (locs.getD (locs.length - j - 1) 0)
            (List.replicate (td.element_size * td.number_of_elements) 0)
        else []) := by
  have hstack : (popN j (pushAll initialCategoryState locs)).live_variable_stack_ =
      locs.take (locs.length - j) := by
    rw [popN_stack, pushAll_stack]
    simp [initialCategoryState]
  have hcons : (popN j (pushAll initialCategoryState locs)).live_variable_stack_top_ =
      (popN j (pushAll initialCategoryState locs)).live_variable_stack_.getLastD 0 :=
    topConsistent_popN j _ (topConsistent_pushAll locs _ rfl)
  rw [hstack] at hcons
  rcases Nat.lt_or_ge j locs.length with hlt | hge
  · have hm : 0 < locs.length - j := by omega
    have htop : (popN j (pushAll initialCategoryState locs)).live_variable_stack_top_ =
        locs.getD (locs.length - j - 1) 0 := by
      rw [hcons, getLastD_take locs _ hm (by omega)]
    have hidx : locs.length - j - 1 < locs.length := by omega
    have hne : locs.getD (locs.length - j - 1) 0 ≠ 0 := by
      have he : locs.getD (locs.length - j - 1) 0 = locs.get ⟨_, hidx⟩ := by
        rw [List.getD_eq_getElem?_getD, List.getElem?_eq_getElem hidx]
        rfl
      rw [he]
      exact hnn _ (List.get_mem locs _ hidx)
    simp only [sample]
    rw [htop, if_pos hne, if_pos hlt]
  · have hj2 : j = locs.length := by omega
    have htop : (popN j (pushAll initialCategoryState locs)).live_variable_stack_top_ = 0 := by
      rw [hcons, hj2, Nat.sub_self, List.take_zero]
      rfl
    simp only [sample]
    rw [htop, if_neg (by simp), if_neg (by omega)]

theorem claim_c2_sample_witness :
    sample ⟨Kind.Unsigned, 2, 3⟩ (fun a => a % 256) 7
        (popN 1 (pushAll initialCategoryState [100, 200])) =
      (7,
        if 1 < ([100, 200] : List Nat).length then
          copyIntoBuffer (fun a => a % 256)
            (([100, 200] : List Nat).getD (([100, 200] : List Nat).length - 1 - 1) 0)
            (List.replicate ((2 : Nat) * 3) 0)
        else []) :=
  claim_c2_sample ⟨Kind.Unsigned, 2, 3⟩ (fun a => a % 256) 7 [100, 200] 1
    (by decide) (by decide) (by decide)

/-- The states of a category's live-variable stack reachable by legal call
sequences: pushes of non-null locations while below capacity, and pops of a
non-empty stack (each pop matched by a prior un-popped push). -/
inductive ReachableCategoryState : CategoryState → Prop where
  | init : ReachableCategoryState initialCategoryState
  | push (st : CategoryState) (location : Nat) :
      ReachableCategoryState st → location ≠ 0 →
      st.live_variable_stack_.length < MaxNumberOfCoexistentProbesOfSameCategory →
      ReachableCategoryState (pushVariable st location)
  | pop (st : CategoryState) :
      ReachableCategoryState st → st.live_variable_stack_ ≠ [] →
      ReachableCategoryState (popVariable st)

lemma reachable_facts {st : CategoryState} (h : ReachableCategoryState st) :
    (∀ l ∈ st.live_variable_stack_, l ≠ 0) ∧
    st.live_variable_stack_top_ = st.live_variable_stack_.getLastD 0 := by
  induction h with
  | init => exact ⟨fun l hl => (nomatch hl), rfl⟩
  | push st location _ hloc _ ih =>
    refine ⟨?_, topConsistent_push st location⟩
    intro l hl
    simp only [pushVariable] at hl
    rcases List.mem_append.mp hl with h1 | h1
    · exact ih.1 l h1
    · rw [List.mem_singleton.mp h1]
      exact hloc
  | pop st _ _ ih =>
    refine ⟨?_, topConsistent_pop st⟩
    intro l hl
    simp only [popVariable] at hl
    exact ih.1 l (List.dropLast_subset _ hl)

/-- C10: in every category state reachable by a legal sequence of
`pushVariable` / `popVariable` calls, the cached pointer
`live_variable_stack_top_` equals the last element of `live_variable_stack_`
when that stack is non-empty and is null exactly when the stack is empty;
`sample` reads only the cached pointer, so sampling returns the bytes of the
most recently pushed live location. -/
theorem claim_c10_cached_top (st : CategoryState) (td : TypeDescriptor)
    (mem : Nat → Nat) (clock : Nat) (h : ReachableCategoryState st) :
    (st.live_variable_stack_top_ = 0 ↔ st.live_variable_stack_ = []) ∧
    (st.live_variable_stack_ ≠ [] →
      st.live_variable_stack_top_ = st.live_variable_stack_.getLastD 0) ∧
    sample td mem clock st =
      (clock,
        if st.live_variable_stack_ = [] then []
        else copyIntoBuffer mem (st.live_variable_stack_.getLastD 0)
          (List.replicate (td.element_size * td.number_of_elements) 0)) := by
  obtain ⟨hnz, htop⟩ := reachable_facts h
  have hlast : st.live_variable_stack_ ≠ [] → st.live_variable_stack_.getLastD 0 ≠ 0 := by
    intro hne
    have hmem : st.live_variable_stack_.getLastD 0 ∈ st.live_variable_stack_ := by
      rw [List.getLastD_eq_getLast?, List.getLast?_eq_getLast _ hne]
      exact List.getLast_mem hne
    exact hnz _ hmem
  constructor
  · constructor
    · intro h0
      by_contra hne
      exact hlast hne (htop ▸ h0)
    · intro he
      rw [htop, he]
      rfl
  constructor
  · intro _
    exact htop
  · by_cases he : st.live_variable_stack_ = []
    · have h0 : st.live_variable_stack_top_ = 0 := by
        rw [htop, he]
        rfl
      simp only [sample]
      rw [h0, if_neg (by simp), if_pos he]
    · simp only [sample]
      rw [htop, if_pos (hlast he), if_neg he]

theorem claim_c10_cached_top_witness :
    ((pushVariable initialCategoryState 5).live_variable_stack_top_ = 0 ↔
      (pushVariable initialCategoryState 5).live_variable_stack_ = []) ∧
    ((pushVariable initialCategoryState 5).live_variable_stack_ ≠ [] →
      (pushVariable initialCategoryState 5).live_variable_stack_top_ =
        (pushVariable initialCategoryState 5).live_variable_stack_.getLastD 0) ∧
    sample ⟨Kind.Unsigned, 1, 1⟩ (fun a => a % 256) 3 (pushVariable initialCategoryState 5) =
      (3,
        if (pushVariable initialCategoryState 5).live_variable_stack_ = [] then []
        else copyIntoBuffer (fun a => a % 256)
          ((pushVariable initialCategoryState 5).live_variable_stack_.getLastD 0)
          (List.replicate ((1 : Nat) * 1) 0)) :=
  claim_c10_cached_top (pushVariable initialCategoryState 5) ⟨Kind.Unsigned, 1, 1⟩
    (fun a => a % 256) 3
    (ReachableCategoryState.push initialCategoryState 5
      ReachableCategoryState.init (by decide) (by decide))

/-! ### The global category registry (intrusive singly linked list)

A registered `Category` object is identified by its address (`id`; distinct
live objects have distinct addresses), and carries its immutable type
descriptor and encoded name (the `Name` chunks, a `List Nat`; the empty name
is the all-zero chunk vector).  The registry is the linked list from
`Category::getListRoot()`, most recently constructed first. -/

/-- One registered `Category` object. -/
structure Category where
  id : Nat
  type_descriptor_ : TypeDescriptor
  name_ : List Nat
deriving DecidableEq

/-- Embeds `Category::Category`: the constructor links the new object at the head of
the global list (`next_instance_in_list_ = root; root = this`). -/
def constructCategory (root : List Category) (c : Category) : List Category := c :: root

/-- Constructing several categories in order. -/
def constructAll (root : List Category) (cs : List Category) : List Category :=
  cs.foldl constructCategory root

/-- The search loop of `Category::~Category` (taken when the destroyed object
is not the list head), supplied with fuel: each iteration tests
`item->next_instance_in_list_ == this` and splices on a match, but the loop
body contains no statement advancing `item`, so `item` stays at the list head
on every iteration; `none` means the fuel ran out with the loop still
spinning (i.e. the loop does not terminate). -/
def destructorSearch (root : List Category) (me : Nat) : Nat → Option (List Category)
  | 0 => none
  | fuel + 1 =>
    match root with
    | [] => some []
    | x :: rest =>
      if rest.head?.map Category.id = some me then some (x :: rest.tail)
      else destructorSearch root me fuel

/-- Embeds `Category::~Category`: if the destroyed object is the list head it is
unlinked directly; otherwise the search loop runs with the given fuel. -/
def runDestructor (root : List Category) (me : Nat) (fuel : Nat) : Option (List Category) :=
  if root.head?.map Category.id = some me then some root.tail
  else destructorSearch root me fuel

/-- Embeds `legilimens::findCategoryByIndex`: traverses the list while decrementing
the index (`index --> 0`), returning null when the list runs out first. -/
def findCategoryByIndex (root : List Category) (index : Nat) : Option Category :=
  match root, index with
  | [], _ => none
  | x :: _, 0 => some x
  | _ :: rest, i + 1 => findCategoryByIndex rest i

/-- Embeds `legilimens::findCategoryByName`: returns the first category (in list
order) whose name matches, or null. -/
def findCategoryByName (root : List Category) (name : List Nat) : Option Category :=
  match root with
  | [] => none
  | x :: rest => if x.name_ = name then some x else findCategoryByName rest name

/-- Embeds `legilimens::countCategories`: full traversal counting the entries. -/
def countCategories (root : List Category) : Nat :=
  match root with
  | [] => 0
  | _ :: rest => countCategories rest + 1

/-- The inner loop of `legilimens::findFirstNonUniqueCategoryName`: scans the
whole list for a category distinct from `outer` (pointer inequality, i.e.
distinct address) with the same name, returning that name. -/
def findDuplicateInner (root : List Category) (outer : Category) : Option (List Nat) :=
  match root with
  | [] => none
  | inner :: rest =>
    if inner.id ≠ outer.id ∧ inner.name_ = outer.name_ then some inner.name_
    else findDuplicateInner rest outer

/-- The outer loop of `legilimens::findFirstNonUniqueCategoryName` over the
remaining outer candidates, with the full list fixed for the inner scan. -/
def findFirstNonUniqueAux (full : List Category) : List Category → List Nat
  | [] => List.replicate NumberOfChunks 0
  | outer :: rest =>
    match findDuplicateInner full outer with
    | some n => n
    | none => findFirstNonUniqueAux full rest

/-- Embeds `legilimens::findFirstNonUniqueCategoryName`: quadratic pair scan;
returns the empty name (all-zero chunks, `Name()`) when every name is
unique. -/
def findFirstNonUniqueCategoryName (root : List Category) : List Nat :=
  findFirstNonUniqueAux root root

/-- Modelled from the spec: the scan over the remaining outer candidates for
"the first identifier that is shared by two distinct categories". -/
def firstDuplicateSpecAux (full : List Category) : List Category → List Nat
  | [] => List.replicate NumberOfChunks 0
  | outer :: rest =>
    if ∃ inner ∈ full, inner.id ≠ outer.id ∧ inner.name_ = outer.name_ then outer.name_
    else firstDuplicateSpecAux full rest

/-- Modelled from the spec: "returns the first identifier that is shared by
two distinct categories, or none" — the name of the first category in list
order for which some distinct (different-address) category has the same
name, with the empty name standing for "none". -/
def firstDuplicateSpec (root : List Category) : List Nat :=
  firstDuplicateSpecAux root root

/-- C1 (the code violates the claim): with three registered categories,
destroying the earliest-constructed one — a `Category` that is neither the
list head nor the head's immediate successor — never terminates: the
destructor's search loop body does not advance `item`, so no amount of fuel
completes the unlink. -/
theorem claim_c1_destructor_diverges :
    ∀ fuel, runDestructor
      [⟨2, ⟨Kind.Unsigned, 4, 1⟩, [3, 0, 0, 0]⟩,
       ⟨1, ⟨Kind.Integer, 2, 1⟩, [2, 0, 0, 0]⟩,
       ⟨0, ⟨Kind.Boolean, 1, 1⟩, [1, 0, 0, 0]⟩] 0 fuel = none := by
  intro fuel
  rw [runDestructor, if_neg (by decide)]
  induction fuel with
  | zero => rfl
  | succ n ih =>
    rw [destructorSearch, if_neg (by decide)]
    exact ih

lemma countCategories_eq_length : ∀ root, countCategories root = root.length := by
  intro root
  induction root with
  | nil => rfl
  | cons x rest ih => rw [countCategories, ih, List.length_cons]

lemma findCategoryByIndex_eq_getElem? : ∀ root index,
    findCategoryByIndex root index = root[index]? := by
  intro root
  induction root with
  | nil => intro index; cases index <;> rfl
  | cons x rest ih =>
    intro index
    cases index with
    | zero => simp [findCategoryByIndex]
    | succ i => rw [findCategoryByIndex, ih i, List.getElem?_cons_succ]

lemma constructAll_eq : ∀ (cs : List Category) (root : List Category),
    constructAll root cs = cs.reverse ++ root := by
  intro cs
  induction cs with
  | nil => intro root; simp [constructAll]
  | cons c rest ih =>
    intro root
    rw [constructAll, List.foldl_cons]
    have h := ih (constructCategory root c)
    rw [constructAll] at h
    rw [h, constructCategory]
    simp

lemma findCategoryByName_of_unique : ∀ (root : List Category) (c : Category),
    c ∈ root → (∀ d ∈ root, d.name_ = c.name_ → d = c) →
    findCategoryByName root c.name_ = some c := by
  intro root
  induction root with
  | nil => intro c hc _; cases hc
  | cons x rest ih =>
    intro c hc huniq
    rw [findCategoryByName]
    by_cases hx : x.name_ = c.name_
    · rw [if_pos hx, huniq x (List.mem_cons_self x rest) hx]
    · rw [if_neg hx]
      rcases List.mem_cons.mp hc with h | h
      · exfalso
        apply hx
        rw [← h]
      · exact ih c h (fun d hd => huniq d (List.mem_cons_of_mem x hd))

/-- C6 (amended): after constructing `N` categories whose names are pairwise
distinct and distinct from the names of all already-registered categories
(distinct `(name, type)` pairs alone are not enough for the `byName` part,
since `findCategoryByName` returns only the first match — see the
counterexample), `countCategories` grows by `N`, each new category is
returned by `findCategoryByIndex` for exactly one index and by
`findCategoryByName` for its name, and `findCategoryByIndex i` is null
exactly when `i ≥ countCategories`. -/
theorem claim_c6_registry (old news : List Category)
    (hids : ((constructAll old news).map Category.id).Nodup)
    (hnames : (news.map Category.name_).Nodup ∧
      ∀ c ∈ news, ∀ d ∈ old, c.name_ ≠ d.name_) :
    countCategories (constructAll old news) = countCategories old + news.length ∧
    (∀ c ∈ news, ∃! i, findCategoryByIndex (constructAll old news) i = some c) ∧
    (∀ c ∈ news, findCategoryByName (constructAll old news) c.name_ = some c) ∧
    (∀ i, findCategoryByIndex (constructAll old news) i = none ↔
      countCategories (constructAll old news) ≤ i) := by
  have hR : constructAll old news = news.reverse ++ old := constructAll_eq news old
  refine ⟨?_, ?_, ?_, ?_⟩
  · rw [countCategories_eq_length, countCategories_eq_length, hR,
      List.length_append, List.length_reverse]
    omega
  · intro c hc
    have hmem : c ∈ constructAll old news := by
      rw [hR]
      exact List.mem_append.mpr (Or.inl (List.mem_reverse.mpr hc))
    have hnodup : (constructAll old news).Nodup := List.Nodup.of_map _ hids
    obtain ⟨i, hi, hgetl⟩ := List.getElem_of_mem hmem
    refine ⟨i, ?_, ?_⟩
    · show findCategoryByIndex (constructAll old news) i = some c
      rw [findCategoryByIndex_eq_getElem?, List.getElem?_eq_getElem hi, hgetl]
    · intro j hj0
      have hj : findCategoryByIndex (constructAll old news) j = some c := hj0
      rw [findCategoryByIndex_eq_getElem?] at hj
      have hjlt : j < (constructAll old news).length := by
        by_contra hge
        rw [List.getElem?_eq_none (by omega)] at hj
        cases hj
      apply List.getElem?_inj hjlt hnodup
      rw [hj, List.getElem?_eq_getElem hi, hgetl]
  · intro c hc
    apply findCategoryByName_of_unique
    · rw [hR]
      exact List.mem_append.mpr (Or.inl (List.mem_reverse.mpr hc))
    · intro d hd hdname
      rw [hR] at hd
      rcases List.mem_append.mp hd with h | h
      · rw [List.mem_reverse] at h
        exact List.inj_on_of_nodup_map hnames.1 h hc hdname
      · exact absurd hdname.symm (hnames.2 c hc d h)
  · intro i
    rw [findCategoryByIndex_eq_getElem?, countCategories_eq_length]
    exact List.getElem?_eq_none_iff

theorem claim_c6_registry_witness :
    countCategories (constructAll []
        [⟨1, ⟨Kind.Unsigned, 2, 1⟩, [5, 0, 0, 0]⟩, ⟨2, ⟨Kind.Integer, 4, 1⟩, [6, 0, 0, 0]⟩]) =
      countCategories [] +
        ([⟨1, ⟨Kind.Unsigned, 2, 1⟩, [5, 0, 0, 0]⟩,
          ⟨2, ⟨Kind.Integer, 4, 1⟩, [6, 0, 0, 0]⟩] : List Category).length ∧
    findCategoryByName
      (constructAll []
        [⟨1, ⟨Kind.Unsigned, 2, 1⟩, [5, 0, 0, 0]⟩, ⟨2, ⟨Kind.Integer, 4, 1⟩, [6, 0, 0, 0]⟩])
      [5, 0, 0, 0] = some ⟨1, ⟨Kind.Unsigned, 2, 1⟩, [5, 0, 0, 0]⟩ := by
  have h := claim_c6_registry []
    [⟨1, ⟨Kind.Unsigned, 2, 1⟩, [5, 0, 0, 0]⟩, ⟨2, ⟨Kind.Integer, 4, 1⟩, [6, 0, 0, 0]⟩]
    (by decide) ⟨by decide, by decide⟩
  exact ⟨h.1, h.2.2.1 ⟨1, ⟨Kind.Unsigned, 2, 1⟩, [5, 0, 0, 0]⟩ (by decide)⟩

/-- C6 counterexample: two categories with distinct `(name, type)` pairs but
equal names.  After constructing both, `findCategoryByName` returns the most
recently constructed one, so the earlier one is never returned by
`findCategoryByName` for its name — the claim's "each new Category is
returned … by findCategoryByName for its name" fails under mere pair
distinctness. -/
theorem claim_c6_counterexample :
    (([5, 0, 0, 0], (⟨Kind.Unsigned, 2, 1⟩ : TypeDescriptor)) ≠
      ([5, 0, 0, 0], (⟨Kind.Integer, 4, 1⟩ : TypeDescriptor))) ∧
    findCategoryByName
      (constructAll []
        [⟨1, ⟨Kind.Unsigned, 2, 1⟩, [5, 0, 0, 0]⟩, ⟨2, ⟨Kind.Integer, 4, 1⟩, [5, 0, 0, 0]⟩])
      [5, 0, 0, 0] ≠ some ⟨1, ⟨Kind.Unsigned, 2, 1⟩, [5, 0, 0, 0]⟩ := by
  refine ⟨by decide, by decide⟩

lemma findDuplicateInner_eq : ∀ (root : List Category) (outer : Category),
    findDuplicateInner root outer =
      if ∃ inner ∈ root, inner.id ≠ outer.id ∧ inner.name_ = outer.name_
      then some outer.name_ else none := by
  intro root outer
  induction root with
  | nil =>
    rw [findDuplicateInner, if_neg (by simp)]
  | cons x rest ih =>
    by_cases hx : x.id ≠ outer.id ∧ x.name_ = outer.name_
    · rw [findDuplicateInner, if_pos hx, hx.2,
        if_pos ⟨x, List.mem_cons_self x rest, hx⟩]
    · rw [findDuplicateInner, if_neg hx, ih]
      have hiff : (∃ inner ∈ rest, inner.id ≠ outer.id ∧ inner.name_ = outer.name_) ↔
          (∃ inner ∈ x :: rest, inner.id ≠ outer.id ∧ inner.name_ = outer.name_) := by
        constructor
        · rintro ⟨inner, hin, hp⟩
          exact ⟨inner, List.mem_cons_of_mem x hin, hp⟩
        · rintro ⟨inner, hin, hp⟩
          rcases List.mem_cons.mp hin with h | h
          · exact absurd (h ▸ hp) hx
          · exact ⟨inner, h, hp⟩
      rw [if_congr hiff rfl rfl]

lemma findFirstNonUniqueAux_eq : ∀ (full l : List Category),
    findFirstNonUniqueAux full l = firstDuplicateSpecAux full l := by
  intro full l
  induction l with
  | nil => rfl
  | cons outer rest ih =>
    rw [findFirstNonUniqueAux, findDuplicateInner_eq, firstDuplicateSpecAux]
    by_cases h : ∃ inner ∈ full, inner.id ≠ outer.id ∧ inner.name_ = outer.name_
    · rw [if_pos h, if_pos h]
    · rw [if_neg h, if_neg h, ih]

/-- The pair scan agrees with its specification: it returns the name of the
first category (in list order) that shares its name with a distinct category,
or the empty name. -/
lemma findFirstNonUnique_eq_spec (root : List Category) :
    findFirstNonUniqueCategoryName root = firstDuplicateSpec root := by
  rw [findFirstNonUniqueCategoryName, findFirstNonUniqueAux_eq, firstDuplicateSpec]

lemma firstDuplicateSpecAux_of_no_dup (full : List Category) : ∀ l,
    (∀ outer ∈ l, ¬ ∃ inner ∈ full, inner.id ≠ outer.id ∧ inner.name_ = outer.name_) →
    firstDuplicateSpecAux full l = List.replicate NumberOfChunks 0 := by
  intro l
  induction l with
  | nil => intro _; rfl
  | cons outer rest ih =>
    intro h
    rw [firstDuplicateSpecAux, if_neg (h outer (List.mem_cons_self outer rest))]
    exact ih (fun o ho => h o (List.mem_cons_of_mem outer ho))

/-- Pairwise distinct names make the duplicate scan come back empty. -/
lemma findFirstNonUnique_of_nodup (root : List Category)
    (h : (root.map Category.name_).Nodup) :
    findFirstNonUniqueCategoryName root = List.replicate NumberOfChunks 0 := by
  rw [findFirstNonUnique_eq_spec, firstDuplicateSpec]
  apply firstDuplicateSpecAux_of_no_dup
  rintro outer houter ⟨inner, hin, hne, hnm⟩
  exact hne (congrArg Category.id (List.inj_on_of_nodup_map h hin houter hnm))

/-- C7: `findFirstNonUniqueCategoryName` agrees with the first-duplicate pair
scan specification and returns the empty `Name` on registries with pairwise
distinct names; registering two categories with the same name but different
`TypeDescriptor`s makes it return that name, and destroying one of the two
(here the head, where the destructor is correct) restores the empty result. -/
theorem claim_c7_duplicate_names (c2 c1 : Category) (rest : List Category) (fuel : Nat)
    (hname : c2.name_ = c1.name_) (hid : c2.id ≠ c1.id)
    (htd : c2.type_descriptor_ ≠ c1.type_descriptor_)
    (huniq : ((c1 :: rest).map Category.name_).Nodup) :
    (∀ root : List Category, findFirstNonUniqueCategoryName root = firstDuplicateSpec root) ∧
    findFirstNonUniqueCategoryName (c2 :: c1 :: rest) = c1.name_ ∧
    runDestructor (c2 :: c1 :: rest) c2.id fuel = some (c1 :: rest) ∧
    findFirstNonUniqueCategoryName (c1 :: rest) = List.replicate NumberOfChunks 0 := by
  refine ⟨findFirstNonUnique_eq_spec, ?_, ?_, findFirstNonUnique_of_nodup _ huniq⟩
  · have h1 : findDuplicateInner (c2 :: c1 :: rest) c2 = some c1.name_ := by
      rw [findDuplicateInner, if_neg (by simp), findDuplicateInner,
        if_pos ⟨Ne.symm hid, hname.symm⟩]
    rw [findFirstNonUniqueCategoryName, findFirstNonUniqueAux, h1]
  · rw [runDestructor, if_pos (by simp)]
    rfl

theorem claim_c7_duplicate_names_witness :
    findFirstNonUniqueCategoryName
      [⟨2, ⟨Kind.Integer, 4, 1⟩, [5, 0, 0, 0]⟩, ⟨1, ⟨Kind.Unsigned, 2, 1⟩, [5, 0, 0, 0]⟩] =
      (⟨1, ⟨Kind.Unsigned, 2, 1⟩, [5, 0, 0, 0]⟩ : Category).name_ ∧
    runDestructor
      [⟨2, ⟨Kind.Integer, 4, 1⟩, [5, 0, 0, 0]⟩, ⟨1, ⟨Kind.Unsigned, 2, 1⟩, [5, 0, 0, 0]⟩]
      2 0 = some [⟨1, ⟨Kind.Unsigned, 2, 1⟩, [5, 0, 0, 0]⟩] ∧
    findFirstNonUniqueCategoryName [⟨1, ⟨Kind.Unsigned, 2, 1⟩, [5, 0, 0, 0]⟩] =
      List.replicate NumberOfChunks 0 := by
  have h := claim_c7_duplicate_names ⟨2, ⟨Kind.Integer, 4, 1⟩, [5, 0, 0, 0]⟩
    ⟨1, ⟨Kind.Unsigned, 2, 1⟩, [5, 0, 0, 0]⟩ [] 0 rfl (by decide) (by decide) (by decide)
  exact ⟨h.2.1, h.2.2.1, h.2.2.2⟩

end Legilimens
